import Mathlib

/- Verification of the Deode-test-runner cleaning engine and test-case
   orchestration against its specification.

   The cleaning engine is embedded from ttr/src/cleaning.py.  External
   collaborators from the deode package (ParsedConfig, CleanDeode,
   EcflowServer, logging) are modelled as oracles carried by a World
   structure, and every observable action of remove_ttr_cases is recorded
   in an explicit event trace. -/

/-- Python exceptions that remove_ttr_cases can raise or catch. -/
inductive PyErr where
  | keyError (k : String)
  | moduleNotFoundError
  | unboundLocalError
  | fileNotFoundError
  deriving DecidableEq

/-- One choice entry of a cleaning rule: the dry_run flag plus the other
settings of the choice table, kept opaque. -/
structure Choice where
  dryRun : Bool
  rest : List (String × String)
  deriving DecidableEq

/-- A TOML table of named choices, as an ordered association list. -/
abbrev Table := List (String × Choice)

/-- The parsed content of config_files/cleaning.toml: its cleaning table,
an ordered association list of named entries (defaults plus rules). -/
structure CleaningConfig where
  cleaning : List (String × Table)
  deriving DecidableEq

/-- Observable actions performed by remove_ttr_cases, in order. -/
inductive Event where
  | logInfo (msg : String)
  | logWarning (msg : String)
  | openFile (path : String)
  | loadConfigFile (path : String)
  | newCleaner (defaults : Option Table)
  | prepCleaning (rule : String) (choices : Table)
  | clean
  | removeSuites (suites : List String) (checkIfComplete : Bool)
  deriving DecidableEq

/-- The external environment of one remove_ttr_cases call: the parsed
cleaning document (none when the file is absent), the os.path.isfile
oracle, the resolved general.case of each per-case config file, the
fully-resolved choice table that config.get returns for each file and
rule after layering, and the behaviour of the EcflowServer scheduler. -/
structure World where
  cleaningToml : Option CleaningConfig
  isFile : String → Bool
  caseOf : String → String
  choicesOf : String → String → Table
  sched : List String → Except PyErr Unit

/-- First-match lookup in an ordered association list (dict access). -/
def lookupKey {α : Type} (k : String) : List (String × α) → Option α
  | [] => none
  | p :: rest => if p.1 = k then some p.2 else lookupKey k rest

/-- dict.pop with a single argument: remove the first binding of the key,
or fail (KeyError) when the key is absent. -/
def popKey {α : Type} (k : String) : List (String × α) → Option (List (String × α))
  | [] => none
  | p :: rest =>
    if p.1 = k then some rest
    else
      match popKey k rest with
      | some rest2 => some (p :: rest2)
      | none => none

/-- The dry-run override loop: set the dry_run flag of every choice. -/
def forceDryRun (choices : Table) : Table :=
  choices.map (fun p => (p.1, { p.2 with dryRun := true }))

/-- The choice table handed to the cleaner for one file and rule: the
resolved choices, with dry_run forced on every choice when dry_run. -/
def ruleChoices (w : World) (dry_run : Bool) (filename rule : String) : Table :=
  if dry_run then forceDryRun (w.choicesOf filename rule) else w.choicesOf filename rule

/-- The inner rule loop of remove_ttr_cases for one loaded file: for each
rule, build a cleaner with the defaults, prime it with the (possibly
dry-run forced) choices, then either log what would be cleaned or clean. -/
def processRules (w : World) (dry_run : Bool) (defaults : Option Table)
    (filename caseId : String) : List String → List Event
  | [] => []
  | r :: rest =>
    (Event.newCleaner defaults ::
      Event.prepCleaning r (ruleChoices w dry_run filename r) ::
      (if dry_run then [Event.logInfo ("Would have cleaned " ++ caseId ++ " rule " ++ r)]
       else [Event.clean])) ++
    processRules w dry_run defaults filename caseId rest

/-- The outer file loop of remove_ttr_cases: skip (with a warning) each
file missing on disk, otherwise load it and run every rule on it. -/
def filesEvents (w : World) (dry_run : Bool) (defaults : Option Table)
    (rules : List String) : List String → List Event
  | [] => []
  | f :: rest =>
    (if w.isFile f then
       Event.loadConfigFile f :: processRules w dry_run defaults f (w.caseOf f) rules
     else [Event.logWarning ("Cannot find " ++ f)]) ++
    filesEvents w dry_run defaults rules rest

/-- The suites list accumulated by the file loop: the resolved case id is
appended once per rule for every file that was loaded. -/
def filesSuites (w : World) (rules : List String) : List String → List String
  | [] => []
  | f :: rest =>
    (if w.isFile f then rules.map (fun _ => w.caseOf f) else []) ++ filesSuites w rules rest

/-- The file the config variable is bound to after the loop: the last
file of the list that exists on disk, none when no file was loaded. -/
def lastLoaded (w : World) : List String → Option String
  | [] => none
  | f :: rest =>
    match lastLoaded w rest with
    | some g => some g
    | none => if w.isFile f then some f else none

def cleaningPath : String := "config_files/cleaning.toml"

def schedWarnMsg : String := "ecflow or config not found, suites not removed"

/-- Embedding of remove_ttr_cases (ttr/src/cleaning.py).  Returns the
Python result (an exception or the returned boolean) together with the
trace of observable events. -/
def remove_ttr_cases (w : World) (files : List String) (dry_run : Bool) :
    Except PyErr Bool × List Event :=
  if files.length = 0 then
    (Except.ok false, [Event.logInfo ("No files no cleaning")])
  else
    match w.cleaningToml with
    | none => (Except.error PyErr.fileNotFoundError, [Event.openFile cleaningPath])
    | some cfg =>
      match popKey "defaults" cfg.cleaning with
      | none => (Except.error (PyErr.keyError "defaults"), [Event.openFile cleaningPath])
      | some remaining =>
        let defaults := lookupKey "defaults" cfg.cleaning
        let rules := remaining.map Prod.fst
        let evs := Event.openFile cleaningPath :: filesEvents w dry_run defaults rules files
        let suites := filesSuites w rules files
        if dry_run then
          (Except.ok true, evs ++ [Event.logInfo ("Would have removed suites")])
        else
          match lastLoaded w files with
          | none => (Except.ok true, evs ++ [Event.logWarning schedWarnMsg])
          | some _ =>
            match w.sched suites with
            | Except.ok _ => (Except.ok true, evs ++ [Event.removeSuites suites true])
            | Except.error e =>
              if e = PyErr.moduleNotFoundError ∨ e = PyErr.unboundLocalError then
                (Except.ok true,
                  evs ++ [Event.removeSuites suites true, Event.logWarning schedWarnMsg])
              else (Except.error e, evs ++ [Event.removeSuites suites true])

/-- Recognizer for scheduler-contact events. -/
def Event.isRemoveSuites : Event → Bool
  | Event.removeSuites _ _ => true
  | _ => false

/-- Recognizer for destructive cleaner invocations. -/
def Event.isClean : Event → Bool
  | Event.clean => true
  | _ => false

/-- Recognizer for raw file opens (the cleaning document load). -/
def Event.isOpenFile : Event → Bool
  | Event.openFile _ => true
  | _ => false

/-- An event respects the dry-run override when it is not a cleaner
priming, or every primed choice has its dry_run flag set. -/
def Event.choicesForced : Event → Bool
  | Event.prepCleaning _ cs => cs.all (fun p => p.2.dryRun)
  | _ => true

/- Concrete example environments, used by the witnesses. -/

def exChoice : Choice := { dryRun := false, rest := [("path", "scratch")] }

def exTable : Table := [("files", exChoice)]

def exDefaults : Table := [("defdir", exChoice)]

def exCfg : CleaningConfig := { cleaning := [("defaults", exDefaults), ("rule1", exTable)] }

def exWorld : World :=
  { cleaningToml := some exCfg
    isFile := fun f => f == "case1.toml"
    caseOf := fun _ => "case1"
    choicesOf := fun _ _ => exTable
    sched := fun _ => Except.ok () }

def exWorldMNF : World :=
  { exWorld with sched := fun _ => Except.error PyErr.moduleNotFoundError }

def exCfgNoDefaults : CleaningConfig := { cleaning := [("rule1", exTable)] }

def exWorldND : World := { exWorld with cleaningToml := some exCfgNoDefaults }

/- Sanity example: the dry-run trace on the example world. -/

example : (remove_ttr_cases exWorld ["case1.toml"] true).2 =
    [Event.openFile cleaningPath,
     Event.loadConfigFile "case1.toml",
     Event.newCleaner (some exDefaults),
     Event.prepCleaning "rule1" (forceDryRun exTable),
     Event.logInfo ("Would have cleaned case1 rule rule1"),
     Event.logInfo ("Would have removed suites")] := by decide

/- Trace lemmas for the rule and file loops. -/

theorem processRules_filter_removeSuites (w : World) (d : Bool) (df : Option Table)
    (f c : String) :
    ∀ rules : List String, (processRules w d df f c rules).filter Event.isRemoveSuites = []
  | [] => rfl
  | r :: rest => by
    have ih := processRules_filter_removeSuites w d df f c rest
    cases d <;>
      simp [processRules, List.filter_append, ih, Event.isRemoveSuites, List.filter]

theorem filesEvents_filter_removeSuites (w : World) (d : Bool) (df : Option Table)
    (rules : List String) :
    ∀ files : List String, (filesEvents w d df rules files).filter Event.isRemoveSuites = []
  | [] => rfl
  | f :: rest => by
    have ih := filesEvents_filter_removeSuites w d df rules rest
    by_cases hf : w.isFile f <;>
      simp [filesEvents, List.filter_append, ih, hf, List.filter, Event.isRemoveSuites,
        processRules_filter_removeSuites]

theorem processRules_filter_clean (w : World) (df : Option Table) (f c : String) :
    ∀ rules : List String, (processRules w true df f c rules).filter Event.isClean = []
  | [] => rfl
  | r :: rest => by
    have ih := processRules_filter_clean w df f c rest
    simp [processRules, List.filter_append, ih, Event.isClean, List.filter]

theorem filesEvents_filter_clean (w : World) (df : Option Table) (rules : List String) :
    ∀ files : List String, (filesEvents w true df rules files).filter Event.isClean = []
  | [] => rfl
  | f :: rest => by
    have ih := filesEvents_filter_clean w df rules rest
    by_cases hf : w.isFile f <;>
      simp [filesEvents, List.filter_append, ih, hf, List.filter, Event.isClean,
        processRules_filter_clean]

theorem forceDryRun_all (t : Table) :
    (forceDryRun t).all (fun p => p.2.dryRun) = true := by
  simp [forceDryRun, List.all_map, Function.comp]

theorem processRules_choicesForced (w : World) (df : Option Table) (f c : String) :
    ∀ rules : List String, (processRules w true df f c rules).all Event.choicesForced = true
  | [] => rfl
  | r :: rest => by
    have ih := processRules_choicesForced w df f c rest
    simp [processRules, List.all_append, ih, Event.choicesForced, ruleChoices,
      forceDryRun_all, List.all]

theorem filesEvents_choicesForced (w : World) (df : Option Table) (rules : List String) :
    ∀ files : List String, (filesEvents w true df rules files).all Event.choicesForced = true
  | [] => rfl
  | f :: rest => by
    have ih := filesEvents_choicesForced w df rules rest
    by_cases hf : w.isFile f <;>
      simp [filesEvents, List.all_append, ih, hf, List.all, Event.choicesForced,
        processRules_choicesForced]

/-- Claim C1: for every environment and every file list, running
remove_ttr_cases with dry_run set never produces a scheduler
suite-removal event: EcflowServer.remove_suites is neither constructed
nor called on the dry-run branch, regardless of rule content.  (Proved
for all file lists, which covers every non-empty one.) -/
theorem dry_run_never_contacts_scheduler (w : World) (files : List String) :
    ((remove_ttr_cases w files true).2.filter Event.isRemoveSuites) = [] := by
  cases files with
  | nil => rfl
  | cons f fs =>
    unfold remove_ttr_cases
    cases hc : w.cleaningToml with
    | none => simp [Event.isRemoveSuites, List.filter]
    | some cfg =>
      cases hp : popKey "defaults" cfg.cleaning with
      | none => simp [hp, Event.isRemoveSuites, List.filter]
      | some remaining =>
        simp [hp, List.filter_append, List.filter, Event.isRemoveSuites,
          filesEvents_filter_removeSuites]

/-- Claim C3: on the empty file list remove_ttr_cases returns false for
either value of dry_run, logs that there is nothing to clean, and
performs no file input or output and no cleaning: the cleaning-rule
document is not even opened. -/
theorem empty_files_no_io (w : World) (dry_run : Bool) :
    remove_ttr_cases w [] dry_run =
      (Except.ok false, [Event.logInfo ("No files no cleaning")]) ∧
    (remove_ttr_cases w [] dry_run).2.filter Event.isOpenFile = [] ∧
    (remove_ttr_cases w [] dry_run).2.filter Event.isClean = [] := by
  refine ⟨rfl, ?_, ?_⟩ <;> rfl

/-- Claim C5: under dry_run every cleaner priming in the trace carries
only choices whose dry_run flag has been forced true, whatever the
configured values were, and the destructive clean operation never
appears in the trace.  (Proved for all file lists.) -/
theorem dry_run_forces_choices_no_clean (w : World) (files : List String) :
    ((remove_ttr_cases w files true).2.all Event.choicesForced = true) ∧
    ((remove_ttr_cases w files true).2.filter Event.isClean = []) := by
  cases files with
  | nil => exact ⟨rfl, rfl⟩
  | cons f fs =>
    unfold remove_ttr_cases
    cases hc : w.cleaningToml with
    | none => exact ⟨rfl, rfl⟩
    | some cfg =>
      cases hp : popKey "defaults" cfg.cleaning with
      | none =>
        constructor <;> simp [hp, Event.choicesForced, Event.isClean, List.filter, List.all]
      | some remaining =>
        constructor
        · simp [hp, List.all_append, List.all, Event.choicesForced, filesEvents_choicesForced]
        · simp [hp, List.filter_append, List.filter, Event.isClean, Event.isOpenFile,
            filesEvents_filter_clean]

/- Membership lemmas for the file loop. -/

theorem filesEvents_warn_mem (w : World) (d : Bool) (df : Option Table)
    (rules : List String) (g : String) :
    ∀ files : List String, g ∈ files → w.isFile g = false →
      Event.logWarning ("Cannot find " ++ g) ∈ filesEvents w d df rules files
  | f :: rest, hg, hmiss => by
    rcases List.mem_cons.mp hg with h | h
    · subst h
      simp [filesEvents, hmiss]
    · have ih := filesEvents_warn_mem w d df rules g rest h hmiss
      simp [filesEvents, List.mem_append, ih]

theorem filesEvents_load_mem (w : World) (d : Bool) (df : Option Table)
    (rules : List String) (g : String) :
    ∀ files : List String, g ∈ files → w.isFile g = true →
      Event.loadConfigFile g ∈ filesEvents w d df rules files
  | f :: rest, hg, hhit => by
    rcases List.mem_cons.mp hg with h | h
    · subst h
      simp [filesEvents, hhit]
    · have ih := filesEvents_load_mem w d df rules g rest h hhit
      simp [filesEvents, List.mem_append, ih]

theorem lastLoaded_none (w : World) :
    ∀ files : List String, (∀ f ∈ files, w.isFile f = false) → lastLoaded w files = none
  | [], _ => rfl
  | f :: rest, h => by
    have ih := lastLoaded_none w rest (fun g hg => h g (List.mem_cons_of_mem f hg))
    have hf := h f (List.mem_cons_self f rest)
    simp [lastLoaded, ih, hf]

/-- In every non-error outcome, the trace begins with the cleaning
document open followed by the whole file-loop trace: nothing the file
loop did is ever removed afterwards. -/
theorem run_trace_superset (w : World) (files : List String) (dry_run : Bool)
    (cfg : CleaningConfig) (remaining : List (String × Table))
    (hfiles : files ≠ [])
    (hc : w.cleaningToml = some cfg)
    (hp : popKey "defaults" cfg.cleaning = some remaining) :
    ∀ e ∈ filesEvents w dry_run (lookupKey "defaults" cfg.cleaning)
        (remaining.map Prod.fst) files,
      e ∈ (remove_ttr_cases w files dry_run).2 := by
  intro e he
  cases files with
  | nil => exact absurd rfl hfiles
  | cons f fs =>
    unfold remove_ttr_cases
    rw [hc]
    simp only [hp, List.length_cons, Nat.succ_ne_zero, if_false]
    cases dry_run with
    | true => simp [List.mem_append, he]
    | false =>
      cases lastLoaded w (f :: fs) with
      | none => simp [List.mem_append, he]
      | some g =>
        cases w.sched (filesSuites w (remaining.map Prod.fst) (f :: fs)) with
        | ok u => simp [List.mem_append, he]
        | error e2 =>
          by_cases h2 : e2 = PyErr.moduleNotFoundError ∨ e2 = PyErr.unboundLocalError <;>
            simp [h2, List.mem_append, he]

/-- Claim C2: with a non-empty file list and dry_run off, when the
scheduler step fails because the scheduler module is absent
(ModuleNotFoundError) or because no configuration object was ever bound
(every file was missing, so referencing config raises
UnboundLocalError), the failure is caught and logged as a warning, the
local cleaning trace already produced is retained unchanged, and
remove_ttr_cases still returns true. -/
theorem scheduler_failure_caught (w : World) (files : List String)
    (cfg : CleaningConfig) (remaining : List (String × Table))
    (hfiles : files ≠ [])
    (hc : w.cleaningToml = some cfg)
    (hp : popKey "defaults" cfg.cleaning = some remaining)
    (hfail : (∀ s, w.sched s = Except.error PyErr.moduleNotFoundError) ∨
      (∀ f ∈ files, w.isFile f = false)) :
    (remove_ttr_cases w files false).1 = Except.ok true ∧
    Event.logWarning schedWarnMsg ∈ (remove_ttr_cases w files false).2 ∧
    (∀ e ∈ filesEvents w false (lookupKey "defaults" cfg.cleaning)
        (remaining.map Prod.fst) files,
      e ∈ (remove_ttr_cases w files false).2) := by
  refine ⟨?_, ?_, run_trace_superset w files false cfg remaining hfiles hc hp⟩ <;>
  · cases files with
    | nil => exact absurd rfl hfiles
    | cons f fs =>
      unfold remove_ttr_cases
      rw [hc]
      simp only [hp, List.length_cons, Nat.succ_ne_zero, if_false]
      rcases hfail with hsched | hmiss
      · cases hl : lastLoaded w (f :: fs) with
        | none => simp
        | some g => simp [hsched]
      · rw [lastLoaded_none w (f :: fs) hmiss]
        simp

/-- Witness for C2: a concrete world whose scheduler always raises
ModuleNotFoundError still yields true and a warning after cleaning one
file live. -/
theorem scheduler_failure_caught_witness :
    (remove_ttr_cases exWorldMNF ["case1.toml"] false).1 = Except.ok true ∧
    Event.logWarning schedWarnMsg ∈ (remove_ttr_cases exWorldMNF ["case1.toml"] false).2 :=
  ⟨(scheduler_failure_caught exWorldMNF ["case1.toml"] exCfg [("rule1", exTable)]
      (by decide) rfl (by decide) (Or.inl (fun s => rfl))).1,
   (scheduler_failure_caught exWorldMNF ["case1.toml"] exCfg [("rule1", exTable)]
      (by decide) rfl (by decide) (Or.inl (fun s => rfl))).2.1⟩

/-- Claim C4: for a non-empty file list (with the cleaning document
present and carrying its defaults entry, and the run either dry, or with
a functioning scheduler, or with every file missing), each file missing
on disk is logged as a warning and skipped while every present file is
still loaded and processed, and remove_ttr_cases returns true — also
when every file was skipped as missing. -/
theorem missing_files_skipped (w : World) (files : List String) (dry_run : Bool)
    (cfg : CleaningConfig) (remaining : List (String × Table))
    (hfiles : files ≠ [])
    (hc : w.cleaningToml = some cfg)
    (hp : popKey "defaults" cfg.cleaning = some remaining)
    (henv : dry_run = true ∨ (∀ s, w.sched s = Except.ok ()) ∨
      (∀ f ∈ files, w.isFile f = false)) :
    (remove_ttr_cases w files dry_run).1 = Except.ok true ∧
    (∀ f ∈ files,
      (w.isFile f = false →
        Event.logWarning ("Cannot find " ++ f) ∈ (remove_ttr_cases w files dry_run).2) ∧
      (w.isFile f = true →
        Event.loadConfigFile f ∈ (remove_ttr_cases w files dry_run).2)) := by
  constructor
  · cases files with
    | nil => exact absurd rfl hfiles
    | cons f fs =>
      unfold remove_ttr_cases
      rw [hc]
      simp only [hp, List.length_cons, Nat.succ_ne_zero, if_false]
      rcases henv with hd | hok | hmiss
      · simp [hd]
      · cases hd : dry_run with
        | true => simp
        | false =>
          cases hl : lastLoaded w (f :: fs) with
          | none => simp
          | some g => simp [hok]
      · cases hd : dry_run with
        | true => simp
        | false =>
          rw [lastLoaded_none w (f :: fs) hmiss]
          simp
  · intro f hf
    constructor
    · intro hmiss
      exact run_trace_superset w files dry_run cfg remaining hfiles hc hp _
        (filesEvents_warn_mem w dry_run _ _ f files hf hmiss)
    · intro hhit
      exact run_trace_superset w files dry_run cfg remaining hfiles hc hp _
        (filesEvents_load_mem w dry_run _ _ f files hf hhit)

/-- Witness for C4: a live run over one missing and one present file
returns true, warns about the missing file and loads the present one. -/
theorem missing_files_skipped_witness :
    (remove_ttr_cases exWorld ["gone.toml", "case1.toml"] false).1 = Except.ok true ∧
    Event.logWarning ("Cannot find gone.toml") ∈
      (remove_ttr_cases exWorld ["gone.toml", "case1.toml"] false).2 ∧
    Event.loadConfigFile "case1.toml" ∈
      (remove_ttr_cases exWorld ["gone.toml", "case1.toml"] false).2 :=
  ⟨(missing_files_skipped exWorld ["gone.toml", "case1.toml"] false exCfg
      [("rule1", exTable)] (by decide) rfl (by decide)
      (Or.inr (Or.inl (fun s => rfl)))).1,
   ((missing_files_skipped exWorld ["gone.toml", "case1.toml"] false exCfg
      [("rule1", exTable)] (by decide) rfl (by decide)
      (Or.inr (Or.inl (fun s => rfl)))).2 "gone.toml" (by decide)).1 (by decide),
   ((missing_files_skipped exWorld ["gone.toml", "case1.toml"] false exCfg
      [("rule1", exTable)] (by decide) rfl (by decide)
      (Or.inr (Or.inl (fun s => rfl)))).2 "case1.toml" (by decide)).2 (by decide)⟩

/- Lemmas about which events the loops can emit. -/

theorem processRules_filter_openFile (w : World) (d : Bool) (df : Option Table)
    (f c : String) :
    ∀ rules : List String, (processRules w d df f c rules).filter Event.isOpenFile = []
  | [] => rfl
  | r :: rest => by
    have ih := processRules_filter_openFile w d df f c rest
    cases d <;>
      simp [processRules, List.filter_append, ih, Event.isOpenFile, List.filter]

theorem filesEvents_filter_openFile (w : World) (d : Bool) (df : Option Table)
    (rules : List String) :
    ∀ files : List String, (filesEvents w d df rules files).filter Event.isOpenFile = []
  | [] => rfl
  | f :: rest => by
    have ih := filesEvents_filter_openFile w d df rules rest
    by_cases hf : w.isFile f <;>
      simp [filesEvents, List.filter_append, ih, hf, List.filter, Event.isOpenFile,
        processRules_filter_openFile]

theorem processRules_prep_rule (w : World) (d : Bool) (df : Option Table)
    (f c r : String) (cs : Table) :
    ∀ rules : List String,
      Event.prepCleaning r cs ∈ processRules w d df f c rules → r ∈ rules
  | [], h => by simp [processRules] at h
  | r2 :: rest, h => by
    have ih := processRules_prep_rule w d df f c r cs rest
    simp only [processRules, List.mem_append, List.mem_cons] at h
    rcases h with (h | h | h) | h
    · exact Event.noConfusion h
    · injection h with h1 h2
      exact List.mem_cons.mpr (Or.inl h1)
    · cases d <;> simp at h
    · exact List.mem_cons_of_mem r2 (ih h)

theorem filesEvents_prep_rule (w : World) (d : Bool) (df : Option Table)
    (rules : List String) (r : String) (cs : Table) :
    ∀ files : List String,
      Event.prepCleaning r cs ∈ filesEvents w d df rules files → r ∈ rules
  | [], h => by simp [filesEvents] at h
  | f :: rest, h => by
    have ih := filesEvents_prep_rule w d df rules r cs rest
    simp only [filesEvents, List.mem_append] at h
    rcases h with h | h
    · by_cases hf : w.isFile f
      · rw [if_pos hf] at h
        rcases List.mem_cons.mp h with h | h
        · exact Event.noConfusion h
        · exact processRules_prep_rule w d df f (w.caseOf f) r cs rules h
      · rw [if_neg hf] at h
        simp at h
    · exact ih h

theorem processRules_prep_present (w : World) (d : Bool) (df : Option Table)
    (f c r : String) :
    ∀ rules : List String, r ∈ rules →
      Event.prepCleaning r (ruleChoices w d f r) ∈ processRules w d df f c rules
  | r2 :: rest, h => by
    rcases List.mem_cons.mp h with h | h
    · subst h
      simp [processRules]
    · have ih := processRules_prep_present w d df f c r rest h
      simp [processRules, List.mem_append, ih]

theorem filesEvents_prep_present (w : World) (d : Bool) (df : Option Table)
    (rules : List String) (g r : String) :
    ∀ files : List String, g ∈ files → w.isFile g = true → r ∈ rules →
      Event.prepCleaning r (ruleChoices w d g r) ∈ filesEvents w d df rules files
  | f :: rest, hg, hhit, hr => by
    rcases List.mem_cons.mp hg with h | h
    · subst h
      simp [filesEvents, hhit, List.mem_append,
        processRules_prep_present w d df g (w.caseOf g) r rules hr]
    · have ih := filesEvents_prep_present w d df rules g r rest h hhit hr
      simp [filesEvents, List.mem_append, ih]

theorem processRules_newCleaner (w : World) (d : Bool) (df o : Option Table)
    (f c : String) :
    ∀ rules : List String, Event.newCleaner o ∈ processRules w d df f c rules → o = df
  | [], h => by simp [processRules] at h
  | r2 :: rest, h => by
    have ih := processRules_newCleaner w d df o f c rest
    simp only [processRules, List.mem_append, List.mem_cons] at h
    rcases h with (h | h | h) | h
    · exact Event.newCleaner.inj h
    · exact Event.noConfusion h
    · cases d <;> simp at h
    · exact ih h

theorem filesEvents_newCleaner (w : World) (d : Bool) (df o : Option Table)
    (rules : List String) :
    ∀ files : List String, Event.newCleaner o ∈ filesEvents w d df rules files → o = df
  | [], h => by simp [filesEvents] at h
  | f :: rest, h => by
    have ih := filesEvents_newCleaner w d df o rules rest
    simp only [filesEvents, List.mem_append] at h
    rcases h with h | h
    · by_cases hf : w.isFile f
      · rw [if_pos hf] at h
        rcases List.mem_cons.mp h with h | h
        · exact Event.noConfusion h
        · exact processRules_newCleaner w d df o f (w.caseOf f) rules h
      · rw [if_neg hf] at h
        simp at h
    · exact ih h

/-- The terminal events after the file loop: the dry-run report, or the
scheduler contact with its caught or propagated failures. -/
def runTail (w : World) (files : List String) (dry_run : Bool) (suites : List String) :
    List Event :=
  if dry_run then [Event.logInfo ("Would have removed suites")]
  else
    match lastLoaded w files with
    | none => [Event.logWarning schedWarnMsg]
    | some _ =>
      match w.sched suites with
      | Except.ok _ => [Event.removeSuites suites true]
      | Except.error e =>
        if e = PyErr.moduleNotFoundError ∨ e = PyErr.unboundLocalError then
          [Event.removeSuites suites true, Event.logWarning schedWarnMsg]
        else [Event.removeSuites suites true]

/-- Closed form of the trace of a run that got past loading the cleaning
document: the document open, then the file loop, then the tail. -/
theorem run_snd_eq (w : World) (files : List String) (dry_run : Bool)
    (cfg : CleaningConfig) (remaining : List (String × Table))
    (hfiles : files ≠ [])
    (hc : w.cleaningToml = some cfg)
    (hp : popKey "defaults" cfg.cleaning = some remaining) :
    (remove_ttr_cases w files dry_run).2 =
      Event.openFile cleaningPath ::
        (filesEvents w dry_run (lookupKey "defaults" cfg.cleaning)
          (remaining.map Prod.fst) files ++
        runTail w files dry_run (filesSuites w (remaining.map Prod.fst) files)) := by
  cases files with
  | nil => exact absurd rfl hfiles
  | cons f fs =>
    unfold remove_ttr_cases runTail
    rw [hc]
    simp only [hp, List.length_cons, Nat.succ_ne_zero, if_false]
    cases dry_run with
    | true => rfl
    | false =>
      cases lastLoaded w (f :: fs) with
      | none => rfl
      | some g =>
        cases w.sched (filesSuites w (remaining.map Prod.fst) (f :: fs)) with
        | ok u => rfl
        | error e2 => cases e2 <;> rfl

/-- Every tail event is a log line or a scheduler contact. -/
theorem runTail_mem (w : World) (files : List String) (dry_run : Bool)
    (suites : List String) (e : Event) :
    e ∈ runTail w files dry_run suites →
      (∃ m, e = Event.logInfo m) ∨ (∃ m, e = Event.logWarning m) ∨
      ∃ s b, e = Event.removeSuites s b := by
  intro he
  unfold runTail at he
  cases dry_run with
  | true =>
    simp at he
    exact Or.inl ⟨_, he⟩
  | false =>
    rw [if_neg (by simp)] at he
    cases hl : lastLoaded w files with
    | none =>
      rw [hl] at he
      simp at he
      exact Or.inr (Or.inl ⟨_, he⟩)
    | some g =>
      rw [hl] at he
      cases hs : w.sched suites with
      | ok u =>
        rw [hs] at he
        simp at he
        exact Or.inr (Or.inr ⟨_, _, he⟩)
      | error e2 =>
        rw [hs] at he
        cases e2 with
        | keyError k =>
          simp at he
          exact Or.inr (Or.inr ⟨_, _, he⟩)
        | moduleNotFoundError =>
          simp at he
          rcases he with he | he
          · exact Or.inr (Or.inr ⟨_, _, he⟩)
          · exact Or.inr (Or.inl ⟨_, he⟩)
        | unboundLocalError =>
          simp at he
          rcases he with he | he
          · exact Or.inr (Or.inr ⟨_, _, he⟩)
          · exact Or.inr (Or.inl ⟨_, he⟩)
        | fileNotFoundError =>
          simp at he
          exact Or.inr (Or.inr ⟨_, _, he⟩)

/- dict.pop lemmas. -/

theorem popKey_eq_none {α : Type} (k : String) :
    ∀ l : List (String × α), k ∉ l.map Prod.fst → popKey k l = none
  | [], _ => rfl
  | p :: rest, h => by
    have h1 : ¬ p.1 = k := by
      intro he
      exact h (by simp [he])
    have h2 : k ∉ rest.map Prod.fst := by
      intro hm
      exact h (by simp [hm])
    simp [popKey, h1, popKey_eq_none k rest h2]

theorem popKey_not_mem_of_nodup {α : Type} (k : String) :
    ∀ l l2 : List (String × α), (l.map Prod.fst).Nodup →
      popKey k l = some l2 → k ∉ l2.map Prod.fst
  | [], l2, _, h => by simp [popKey] at h
  | p :: rest, l2, hnd, h => by
    rw [List.map_cons, List.nodup_cons] at hnd
    by_cases hpk : p.1 = k
    · simp only [popKey, if_pos hpk] at h
      injection h with h2
      subst h2
      rw [← hpk]
      exact hnd.1
    · simp only [popKey, if_neg hpk] at h
      cases hr : popKey k rest with
      | none =>
        rw [hr] at h
        exact Option.noConfusion h
      | some rest2 =>
        rw [hr] at h
        injection h with h2
        subst h2
        intro hm
        rw [List.map_cons, List.mem_cons] at hm
        rcases hm with hm | hm
        · exact hpk hm.symm
        · exact popKey_not_mem_of_nodup k rest rest2 hnd.2 hr hm

/-- Claim C6: the cleaning document is opened exactly once per call; the
reserved defaults entry is removed from the rule set before iteration,
so defaults is never iterated as a rule; every remaining entry name is
applied as a rule to every present file; and the extracted defaults are
the value passed to every cleaner constructed. -/
theorem cleaning_document_handling (w : World) (files : List String) (dry_run : Bool)
    (cfg : CleaningConfig) (remaining : List (String × Table))
    (hfiles : files ≠ [])
    (hc : w.cleaningToml = some cfg)
    (hp : popKey "defaults" cfg.cleaning = some remaining)
    (hnd : (cfg.cleaning.map Prod.fst).Nodup) :
    List.count (Event.openFile cleaningPath) (remove_ttr_cases w files dry_run).2 = 1 ∧
    "defaults" ∉ remaining.map Prod.fst ∧
    (∀ r cs, Event.prepCleaning r cs ∈ (remove_ttr_cases w files dry_run).2 →
      r ∈ remaining.map Prod.fst) ∧
    (∀ f ∈ files, w.isFile f = true → ∀ r ∈ remaining.map Prod.fst,
      Event.prepCleaning r (ruleChoices w dry_run f r) ∈
        (remove_ttr_cases w files dry_run).2) ∧
    (∀ o, Event.newCleaner o ∈ (remove_ttr_cases w files dry_run).2 →
      o = lookupKey "defaults" cfg.cleaning) := by
  have heq := run_snd_eq w files dry_run cfg remaining hfiles hc hp
  have hfe : Event.openFile cleaningPath ∉
      filesEvents w dry_run (lookupKey "defaults" cfg.cleaning)
        (remaining.map Prod.fst) files := by
    intro hm
    have hmem : Event.openFile cleaningPath ∈
        (filesEvents w dry_run (lookupKey "defaults" cfg.cleaning)
          (remaining.map Prod.fst) files).filter Event.isOpenFile :=
      List.mem_filter.mpr ⟨hm, rfl⟩
    rw [filesEvents_filter_openFile] at hmem
    exact absurd hmem (List.not_mem_nil _)
  have htail : Event.openFile cleaningPath ∉
      runTail w files dry_run (filesSuites w (remaining.map Prod.fst) files) := by
    intro hm
    rcases runTail_mem _ _ _ _ _ hm with ⟨m, h⟩ | ⟨m, h⟩ | ⟨s, b, h⟩ <;>
      exact Event.noConfusion h
  refine ⟨?_, popKey_not_mem_of_nodup "defaults" cfg.cleaning remaining hnd hp, ?_, ?_, ?_⟩
  · rw [heq]
    simp [List.count_cons, List.count_append, List.count_eq_zero.mpr hfe,
      List.count_eq_zero.mpr htail]
  · intro r cs hm
    rw [heq] at hm
    rcases List.mem_cons.mp hm with h | h
    · exact Event.noConfusion h
    · rcases List.mem_append.mp h with h | h
      · exact filesEvents_prep_rule w dry_run _ _ r cs files h
      · rcases runTail_mem _ _ _ _ _ h with ⟨m, h⟩ | ⟨m, h⟩ | ⟨s, b, h⟩ <;>
          exact Event.noConfusion h
  · intro f hf hhit r hr
    rw [heq]
    exact List.mem_cons_of_mem _ (List.mem_append.mpr (Or.inl
      (filesEvents_prep_present w dry_run _ _ f r files hf hhit hr)))
  · intro o hm
    rw [heq] at hm
    rcases List.mem_cons.mp hm with h | h
    · exact Event.noConfusion h
    · rcases List.mem_append.mp h with h | h
      · exact filesEvents_newCleaner w dry_run _ o _ files h
      · rcases runTail_mem _ _ _ _ _ h with ⟨m, h⟩ | ⟨m, h⟩ | ⟨s, b, h⟩ <;>
          exact Event.noConfusion h

/-- Witness for C6: on the example world the document is opened once and
the surviving rule is applied to the present file. -/
theorem cleaning_document_handling_witness :
    List.count (Event.openFile cleaningPath)
      (remove_ttr_cases exWorld ["case1.toml"] true).2 = 1 ∧
    Event.prepCleaning "rule1" (ruleChoices exWorld true "case1.toml" "rule1") ∈
      (remove_ttr_cases exWorld ["case1.toml"] true).2 :=
  ⟨(cleaning_document_handling exWorld ["case1.toml"] true exCfg [("rule1", exTable)]
      (by decide) rfl (by decide) (by decide)).1,
   (cleaning_document_handling exWorld ["case1.toml"] true exCfg [("rule1", exTable)]
      (by decide) rfl (by decide) (by decide)).2.2.2.1 "case1.toml" (by decide) (by decide)
      "rule1" (by decide)⟩

/-- Claim C10: with a non-empty file list, when the loaded cleaning
configuration has no defaults entry in its cleaning table,
remove_ttr_cases raises an uncaught KeyError from the pop call (the get
has no such fallback problem, but pop does) before any file is
processed: the resulting trace holds only the document open, so no file
was loaded, skipped or cleaned. -/
theorem missing_defaults_keyerror (w : World) (files : List String) (dry_run : Bool)
    (cfg : CleaningConfig)
    (hfiles : files ≠ [])
    (hc : w.cleaningToml = some cfg)
    (habs : "defaults" ∉ cfg.cleaning.map Prod.fst) :
    remove_ttr_cases w files dry_run =
      (Except.error (PyErr.keyError "defaults"), [Event.openFile cleaningPath]) := by
  cases files with
  | nil => exact absurd rfl hfiles
  | cons f fs =>
    unfold remove_ttr_cases
    rw [hc]
    simp [popKey_eq_none "defaults" cfg.cleaning habs]

/-- Witness for C10: a cleaning table holding only rule1 makes the run
fail with KeyError defaults and an otherwise empty trace. -/
theorem missing_defaults_keyerror_witness :
    remove_ttr_cases exWorldND ["case1.toml"] false =
      (Except.error (PyErr.keyError "defaults"), [Event.openFile cleaningPath]) :=
  missing_defaults_keyerror exWorldND ["case1.toml"] false exCfgNoDefaults
    (by decide) rfl (by decide)

/- The TestCases operations (resolve_selection, prepare, get_cmd) live in
   ttr/src/ttr.py, which is not part of the sources here; only its unit
   tests are.  They are therefore modelled from the specification. -/

/-- Modelled from the spec: a Case of the case registry (ttr/src/ttr.py
is missing; only tests/unit/test_ttr.py is available).  A case holds an
abstract host key, an optional subtag marker, an ordered extra overlay
list, and host metadata populated later by the host resolver. -/
structure Case where
  host : Option String
  subtag : Option String
  extra : Option (List String)
  hostname : Option String
  hostdomain : Option String
  deriving DecidableEq

/-- The case registry: ordered mapping from case identifier to Case. -/
abbrev Registry := List (String × Case)

/-- Append an element only when it is not already present. -/
def addUnique (acc : List String) (x : String) : List String :=
  if x ∈ acc then acc else acc ++ [x]

/-- Modelled from the spec: the extra list of a synthesized case is the
union of the base case's existing extra (if any) and the overlays,
preserving overlay order and de-duplicating repeated overlay
identifiers; a base case lacking extra yields the overlays exactly. -/
def mergeExtra : Option (List String) → List String → List String
  | none, overlays => overlays
  | some es, overlays => overlays.foldl addUnique es

/-- Modelled from the spec: the case synthesized for a subtag rule from
a base case: the base case's attributes (host included) with the subtag
set to the rule name and the extra list merged with the overlays. -/
def synthCase (base : Case) (name : String) (overlays : List String) : Case :=
  { base with subtag := some name, extra := some (mergeExtra base.extra overlays) }

/-- Insert a binding only when the identifier is not yet registered. -/
def insertIfAbsent (reg : Registry) (id : String) (c : Case) : Registry :=
  match lookupKey id reg with
  | some _ => reg
  | none => reg ++ [(id, c)]

/-- Modelled from the spec: one subtag rule applied to every base case
of the selection, creating each synthesized id name ++ baseId when it
does not yet exist in the registry. -/
def applySubtagRule (name : String) (overlays : List String) :
    List String → Registry → Registry
  | [], reg => reg
  | c :: rest, reg =>
    applySubtagRule name overlays rest
      (match lookupKey c reg with
       | none => reg
       | some base => insertIfAbsent reg (name ++ c) (synthCase base name overlays))

/-- Modelled from the spec: all subtag rules applied in declaration
order against the growing registry. -/
def applySubtags (baseSel : List String) :
    List (String × List String) → Registry → Registry
  | [], reg => reg
  | p :: rest, reg => applySubtags baseSel rest (applySubtagRule p.1 p.2 baseSel reg)

/-- The general section: optional explicit selection and subtag rules. -/
structure General where
  selection : Option (List String)
  subtags : Option (List (String × List String))
  deriving DecidableEq

/-- The definitions document handed to resolve_selection: the general
section plus the live case registry. -/
structure Definitions where
  general : General
  cases : Registry
  deriving DecidableEq

/-- Modelled from the spec: the base selection is general.selection when
present and non-empty, else all keys of the registry. -/
def baseSelection (d : Definitions) : List String :=
  match d.general.selection with
  | some sel => if sel = [] then d.cases.map Prod.fst else sel
  | none => d.cases.map Prod.fst

/-- The subtag rules of the general section, defaulting to none. -/
def subtagRules (d : Definitions) : List (String × List String) :=
  match d.general.subtags with
  | some s => s
  | none => []

/-- The synthesized identifiers: name ++ baseId for every subtag rule
and base selection entry, in rule declaration order. -/
def synthIds (stags : List (String × List String)) (baseSel : List String) :
    List String :=
  match stags with
  | [] => []
  | p :: rest => baseSel.map (fun c => p.1 ++ c) ++ synthIds rest baseSel

/-- Modelled from the spec: resolve_selection returns the base selection
extended with every synthesized identifier, together with the mutated
registry now holding the synthesized cases. -/
def resolve_selection (d : Definitions) : List String × Registry :=
  (baseSelection d ++ synthIds (subtagRules d) (baseSelection d),
   applySubtags (baseSelection d) (subtagRules d) d.cases)

/- Characterization of mergeExtra as a de-duplicating ordered union. -/

theorem mem_foldl_addUnique (x : String) :
    ∀ (ov acc : List String), x ∈ ov.foldl addUnique acc ↔ x ∈ acc ∨ x ∈ ov
  | [], acc => by simp [List.foldl]
  | o :: rest, acc => by
    rw [List.foldl_cons, mem_foldl_addUnique x rest (addUnique acc o)]
    unfold addUnique
    by_cases h : o ∈ acc
    · rw [if_pos h]
      constructor
      · rintro (hx | hx)
        · exact Or.inl hx
        · exact Or.inr (List.mem_cons_of_mem o hx)
      · rintro (hx | hx)
        · exact Or.inl hx
        · rcases List.mem_cons.mp hx with hx | hx
          · exact Or.inl (hx ▸ h)
          · exact Or.inr hx
    · rw [if_neg h]
      constructor
      · rintro (hx | hx)
        · rcases List.mem_append.mp hx with hx | hx
          · exact Or.inl hx
          · exact Or.inr (List.mem_cons.mpr (Or.inl (List.mem_singleton.mp hx)))
        · exact Or.inr (List.mem_cons_of_mem o hx)
      · rintro (hx | hx)
        · exact Or.inl (List.mem_append.mpr (Or.inl hx))
        · rcases List.mem_cons.mp hx with hx | hx
          · exact Or.inl (List.mem_append.mpr (Or.inr (List.mem_singleton.mpr hx)))
          · exact Or.inr hx

theorem nodup_foldl_addUnique :
    ∀ (ov acc : List String), acc.Nodup → (ov.foldl addUnique acc).Nodup
  | [], acc, h => h
  | o :: rest, acc, h => by
    rw [List.foldl_cons]
    refine nodup_foldl_addUnique rest (addUnique acc o) ?_
    unfold addUnique
    by_cases ho : o ∈ acc
    · rw [if_pos ho]
      exact h
    · rw [if_neg ho]
      rw [List.nodup_append]
      exact ⟨h, List.nodup_singleton o, by simpa using ho⟩

/-- mergeExtra is a de-duplicated union: it holds exactly the members of
the base extra and of the overlays. -/
theorem mem_mergeExtra (es ov : List String) (x : String) :
    x ∈ mergeExtra (some es) ov ↔ x ∈ es ∨ x ∈ ov :=
  mem_foldl_addUnique x ov es

/-- mergeExtra keeps the extra list duplicate-free. -/
theorem mergeExtra_nodup (es ov : List String) (h : es.Nodup) :
    (mergeExtra (some es) ov).Nodup :=
  nodup_foldl_addUnique ov es h

/-- A base case without extra receives the overlays exactly. -/
theorem mergeExtra_none (ov : List String) : mergeExtra none ov = ov := rfl

/- Registry lemmas for subtag expansion. -/

theorem lookupKey_append {α : Type} (k : String) :
    ∀ l1 l2 : List (String × α), lookupKey k (l1 ++ l2) =
      match lookupKey k l1 with
      | some v => some v
      | none => lookupKey k l2
  | [], l2 => rfl
  | p :: rest, l2 => by
    by_cases h : p.1 = k
    · simp [lookupKey, h]
    · simp [lookupKey, h, lookupKey_append k rest l2]

theorem lookupKey_insert_preserve (reg : Registry) (id k : String) (c v : Case)
    (h : lookupKey k reg = some v) :
    lookupKey k (insertIfAbsent reg id c) = some v := by
  unfold insertIfAbsent
  cases lookupKey id reg with
  | some u => exact h
  | none => rw [lookupKey_append, h]

theorem lookupKey_insert_self (reg : Registry) (id : String) (c : Case)
    (h : lookupKey id reg = none) :
    lookupKey id (insertIfAbsent reg id c) = some c := by
  unfold insertIfAbsent
  rw [h, lookupKey_append, h]
  simp [lookupKey]

theorem lookupKey_insert_other (reg : Registry) (id k : String) (c : Case)
    (hne : ¬ id = k) :
    lookupKey k (insertIfAbsent reg id c) = lookupKey k reg := by
  unfold insertIfAbsent
  cases lookupKey id reg with
  | some u => rfl
  | none =>
    rw [lookupKey_append]
    cases h : lookupKey k reg with
    | some v => rfl
    | none => simp [lookupKey, hne]

theorem applySubtagRule_preserve (name : String) (overlays : List String)
    (k : String) (v : Case) :
    ∀ (sel : List String) (reg : Registry), lookupKey k reg = some v →
      lookupKey k (applySubtagRule name overlays sel reg) = some v
  | [], reg, h => h
  | c :: rest, reg, h => by
    unfold applySubtagRule
    refine applySubtagRule_preserve name overlays k v rest _ ?_
    cases lookupKey c reg with
    | none => exact h
    | some base => exact lookupKey_insert_preserve reg (name ++ c) k _ v h

theorem applySubtags_preserve (k : String) (v : Case) (baseSel : List String) :
    ∀ (stags : List (String × List String)) (reg : Registry),
      lookupKey k reg = some v →
      lookupKey k (applySubtags baseSel stags reg) = some v
  | [], reg, h => h
  | p :: rest, reg, h => by
    unfold applySubtags
    exact applySubtags_preserve k v baseSel rest _
      (applySubtagRule_preserve p.1 p.2 k v baseSel reg h)

/-- Applying one subtag rule leaves the tracked synthesized binding
either still absent or bound to exactly the expected synthesized case,
provided synthesized-identifier collisions are excluded. -/
theorem applySubtagRule_status (name name2 : String)
    (overlays overlays2 : List String) (c : String) (C : Case) :
    ∀ (sel : List String) (reg : Registry),
      lookupKey c reg = some C →
      (∀ c2 ∈ sel, name2 ++ c2 = name ++ c →
        name2 = name ∧ c2 = c ∧ overlays2 = overlays) →
      (lookupKey (name ++ c) reg = some (synthCase C name overlays) ∨
        lookupKey (name ++ c) reg = none) →
      (lookupKey (name ++ c) (applySubtagRule name2 overlays2 sel reg) =
          some (synthCase C name overlays) ∨
        lookupKey (name ++ c) (applySubtagRule name2 overlays2 sel reg) = none)
  | [], reg, hC, hinj, hst => hst
  | c2 :: rest, reg, hC, hinj, hst => by
    unfold applySubtagRule
    refine applySubtagRule_status name name2 overlays overlays2 c C rest _ ?_ ?_ ?_
    · cases hl : lookupKey c2 reg with
      | none => exact hC
      | some base => exact lookupKey_insert_preserve reg (name2 ++ c2) c _ C hC
    · exact fun c3 h3 => hinj c3 (List.mem_cons_of_mem c2 h3)
    · cases hl : lookupKey c2 reg with
      | none => exact hst
      | some base =>
        by_cases heq : name2 ++ c2 = name ++ c
        · obtain ⟨hn, hc2, ho⟩ := hinj c2 (List.mem_cons_self c2 rest) heq
          subst hn
          subst hc2
          subst ho
          rw [hC] at hl
          injection hl with hl
          subst hl
          rcases hst with hst | hst
          · exact Or.inl (lookupKey_insert_preserve reg _ _ _ _ hst)
          · exact Or.inl (lookupKey_insert_self reg _ _ hst)
        · rw [lookupKey_insert_other reg (name2 ++ c2) (name ++ c) _ heq]
          exact hst

/-- Processing the subtag rule (name, overlays) itself creates the
synthesized case for base case c when it is still absent. -/
theorem applySubtagRule_creates (name : String) (overlays : List String)
    (c : String) (C : Case) :
    ∀ (sel : List String) (reg : Registry),
      lookupKey c reg = some C →
      (∀ c2 ∈ sel, name ++ c2 = name ++ c → c2 = c) →
      (lookupKey (name ++ c) reg = some (synthCase C name overlays) ∨
        lookupKey (name ++ c) reg = none) →
      c ∈ sel →
      lookupKey (name ++ c) (applySubtagRule name overlays sel reg) =
        some (synthCase C name overlays)
  | c2 :: rest, reg, hC, hinj, hst, hmem => by
    unfold applySubtagRule
    by_cases hcc : c2 = c
    · subst hcc
      refine applySubtagRule_preserve name overlays _ _ rest _ ?_
      rw [hC]
      rcases hst with hst | hst
      · exact lookupKey_insert_preserve reg _ _ _ _ hst
      · exact lookupKey_insert_self reg _ _ hst
    · have hmem2 : c ∈ rest := by
        rcases List.mem_cons.mp hmem with h | h
        · exact absurd h.symm hcc
        · exact h
      refine applySubtagRule_creates name overlays c C rest _ ?_ ?_ ?_ hmem2
      · cases hl : lookupKey c2 reg with
        | none => exact hC
        | some base => exact lookupKey_insert_preserve reg (name ++ c2) c _ C hC
      · exact fun c3 h3 => hinj c3 (List.mem_cons_of_mem c2 h3)
      · cases hl : lookupKey c2 reg with
        | none => exact hst
        | some base =>
          have hne : ¬ name ++ c2 = name ++ c := by
            intro he
            exact hcc (hinj c2 (List.mem_cons_self c2 rest) he)
          rw [lookupKey_insert_other reg (name ++ c2) (name ++ c) _ hne]
          exact hst

/-- Running all subtag rules binds the synthesized identifier to the
expected synthesized case once its rule occurs in the rule list. -/
theorem applySubtags_creates (name : String) (overlays : List String)
    (c : String) (C : Case) (baseSel : List String) (hcb : c ∈ baseSel) :
    ∀ (stags : List (String × List String)) (reg : Registry),
      lookupKey c reg = some C →
      (∀ p ∈ stags, ∀ c2 ∈ baseSel, p.1 ++ c2 = name ++ c →
        p.1 = name ∧ c2 = c ∧ p.2 = overlays) →
      (lookupKey (name ++ c) reg = some (synthCase C name overlays) ∨
        (lookupKey (name ++ c) reg = none ∧ (name, overlays) ∈ stags)) →
      lookupKey (name ++ c) (applySubtags baseSel stags reg) =
        some (synthCase C name overlays)
  | [], reg, hC, hinj, hst => by
    rcases hst with hst | ⟨h1, h2⟩
    · exact hst
    · exact absurd h2 (List.not_mem_nil _)
  | p :: rest, reg, hC, hinj, hst => by
    unfold applySubtags
    have hC2 : lookupKey c (applySubtagRule p.1 p.2 baseSel reg) = some C :=
      applySubtagRule_preserve p.1 p.2 c C baseSel reg hC
    have hinj2 : ∀ q ∈ rest, ∀ c2 ∈ baseSel, q.1 ++ c2 = name ++ c →
        q.1 = name ∧ c2 = c ∧ q.2 = overlays :=
      fun q hq => hinj q (List.mem_cons_of_mem p hq)
    rcases hst with hst | ⟨hnone, hmem⟩
    · refine applySubtags_creates name overlays c C baseSel hcb rest _ hC2 hinj2
        (Or.inl ?_)
      exact applySubtagRule_preserve p.1 p.2 (name ++ c) _ baseSel reg hst
    · rcases List.mem_cons.mp hmem with hp | hp
      · refine applySubtags_creates name overlays c C baseSel hcb rest _ hC2 hinj2
          (Or.inl ?_)
        have hinj3 : ∀ c2 ∈ baseSel, name ++ c2 = name ++ c → c2 = c := by
          intro c2 hb he
          exact (hinj p (List.mem_cons_self p rest) c2 hb (by rw [← hp]; exact he)).2.1
        rw [← hp]
        exact applySubtagRule_creates name overlays c C baseSel reg hC hinj3
          (Or.inr hnone) hcb
      · refine applySubtags_creates name overlays c C baseSel hcb rest _ hC2 hinj2 ?_
        have hst2 := applySubtagRule_status name p.1 overlays p.2 c C baseSel reg hC
          (fun c2 hb he => hinj p (List.mem_cons_self p rest) c2 hb he) (Or.inr hnone)
        rcases hst2 with h | h
        · exact Or.inl h
        · exact Or.inr ⟨h, hp⟩

theorem synthIds_mem (name : String) (overlays : List String) (c : String) :
    ∀ (stags : List (String × List String)) (baseSel : List String),
      (name, overlays) ∈ stags → c ∈ baseSel → (name ++ c) ∈ synthIds stags baseSel
  | p :: rest, baseSel, hm, hc => by
    unfold synthIds
    rcases List.mem_cons.mp hm with h | h
    · refine List.mem_append.mpr (Or.inl ?_)
      rw [← h]
      exact List.mem_map.mpr ⟨c, hc, rfl⟩
    · exact List.mem_append.mpr (Or.inr (synthIds_mem name overlays c rest baseSel h hc))

/-- Claim C7: for every subtag rule (name, overlays) and base case c
with case record C in the base selection (with synthesized-identifier
collisions excluded and the synthesized id not yet registered),
resolve_selection registers a new case under name ++ c whose subtag is
the rule name, whose extra list is the de-duplicated union of C's extra
and the overlays (exactly the overlays when C has no extra, by
mergeExtra), and which inherits C's host; both the base id and the
synthesized id are in the returned selection. -/
theorem subtag_expansion (d : Definitions) (name c : String)
    (overlays : List String) (C : Case)
    (h1 : (name, overlays) ∈ subtagRules d)
    (h2 : c ∈ baseSelection d)
    (h3 : lookupKey c d.cases = some C)
    (h4 : lookupKey (name ++ c) d.cases = none)
    (h5 : ∀ p ∈ subtagRules d, ∀ c2 ∈ baseSelection d,
      p.1 ++ c2 = name ++ c → p.1 = name ∧ c2 = c ∧ p.2 = overlays) :
    lookupKey (name ++ c) (resolve_selection d).2 =
      some (synthCase C name overlays) ∧
    (synthCase C name overlays).subtag = some name ∧
    (synthCase C name overlays).extra = some (mergeExtra C.extra overlays) ∧
    (synthCase C name overlays).host = C.host ∧
    c ∈ (resolve_selection d).1 ∧
    (name ++ c) ∈ (resolve_selection d).1 := by
  refine ⟨?_, rfl, rfl, rfl, ?_, ?_⟩
  · exact applySubtags_creates name overlays c C (baseSelection d) h2 (subtagRules d)
      d.cases h3 h5 (Or.inr ⟨h4, h1⟩)
  · exact List.mem_append.mpr (Or.inl h2)
  · exact List.mem_append.mpr (Or.inr
      (synthIds_mem name overlays c (subtagRules d) (baseSelection d) h1 h2))

def caseX : Case :=
  { host := some "h1", subtag := none, extra := none, hostname := none, hostdomain := none }

def caseY : Case :=
  { host := none, subtag := none, extra := none, hostname := none, hostdomain := none }

/-- The worked selection example of the spec: cases X (host h1) and Y,
selection [X], one subtag rule a with overlays foo and bar. -/
def exDefs : Definitions :=
  { general := { selection := some ["X"], subtags := some [("a", ["foo", "bar"])] }
    cases := [("X", caseX), ("Y", caseY)] }

/-- Witness for C7: on the worked example the registry gains aX with
subtag a, extra [foo, bar] and host h1, and aX joins the selection. -/
theorem subtag_expansion_witness :
    lookupKey ("a" ++ "X") (resolve_selection exDefs).2 =
      some (synthCase caseX "a" ["foo", "bar"]) ∧
    ("a" ++ "X") ∈ (resolve_selection exDefs).1 ∧
    (synthCase caseX "a" ["foo", "bar"]).extra = some ["foo", "bar"] ∧
    (synthCase caseX "a" ["foo", "bar"]).host = some "h1" :=
  ⟨(subtag_expansion exDefs "a" "X" ["foo", "bar"] caseX (by decide) (by decide)
      (by decide) (by decide) (by decide)).1,
   (subtag_expansion exDefs "a" "X" ["foo", "bar"] caseX (by decide) (by decide)
      (by decide) (by decide) (by decide)).2.2.2.2.2,
   rfl, rfl⟩

/-- Modelled from the spec: prepare (ttr/src/ttr.py is missing; only its
unit tests are available) walks the selection in order; an identifier
absent from the registry raises a CaseNotFound error, a present case
without host is silently omitted, and otherwise its host is collected. -/
inductive TtrError where
  | CaseNotFound (id : String)
  deriving DecidableEq

def prepare (cases : Registry) : List String → Except TtrError (List String)
  | [] => Except.ok []
  | id :: rest =>
    match lookupKey id cases with
    | none => Except.error (TtrError.CaseNotFound id)
    | some c =>
      match prepare cases rest with
      | Except.error e => Except.error e
      | Except.ok hosts =>
        Except.ok
          (match c.host with
           | some h => h :: hosts
           | none => hosts)

/-- Claim C8: whenever the selection contains an identifier that is not
registered, prepare fails with a CaseNotFound error naming an
unregistered identifier of the selection instead of returning any
(partial) host list; an unregistered identifier is never silently
skipped. -/
theorem prepare_unregistered_fails (cases : Registry) :
    ∀ selection : List String,
      (∃ id ∈ selection, lookupKey id cases = none) →
      ∃ id ∈ selection, lookupKey id cases = none ∧
        prepare cases selection = Except.error (TtrError.CaseNotFound id)
  | id0 :: rest, hex => by
    cases hl : lookupKey id0 cases with
    | none =>
      refine ⟨id0, List.mem_cons_self id0 rest, hl, ?_⟩
      unfold prepare
      rw [hl]
    | some c =>
      have hex2 : ∃ id ∈ rest, lookupKey id cases = none := by
        rcases hex with ⟨id, hid, hnone⟩
        rcases List.mem_cons.mp hid with h | h
        · rw [h] at hnone
          rw [hnone] at hl
          exact Option.noConfusion hl
        · exact ⟨id, h, hnone⟩
      obtain ⟨id, hid, hnone, herr⟩ := prepare_unregistered_fails cases rest hex2
      refine ⟨id, List.mem_cons_of_mem id0 hid, hnone, ?_⟩
      unfold prepare
      rw [hl, herr]

/-- Witness for C8: the selection [X] against a registry holding only A
fails with CaseNotFound X. -/
theorem prepare_unregistered_fails_witness :
    ∃ id ∈ ["X"], lookupKey id [("A", caseY)] = none ∧
      prepare [("A", caseY)] ["X"] = Except.error (TtrError.CaseNotFound id) :=
  prepare_unregistered_fails [("A", caseY)] ["X"] (by decide)

/-- Modelled from the spec: get_cmd (ttr/src/ttr.py is missing; only its
unit tests are available) serializes the modifications document to
modifs_<caseID>.toml in the test directory and returns the argument
vector [case, base, modifications path] followed by the extra entries.
The result records the file writes performed and the vector. -/
def modifsPath (testDir caseId : String) : String :=
  testDir ++ "/modifs_" ++ caseId ++ ".toml"

structure CmdResult where
  writes : List (String × String)
  cmd : List String
  deriving DecidableEq

def get_cmd (testDir caseId modifications base : String) (extra : List String) :
    CmdResult :=
  { writes := [(modifsPath testDir caseId, modifications)],
    cmd := ["case", base, modifsPath testDir caseId] ++ extra }

/-- Claim C9: get_cmd writes the serialized modifications exactly once,
to the path derived deterministically from the case identifier inside
the test directory, and returns the vector whose first token is case,
followed by the base, the modifications path, and every extra entry in
input order. -/
theorem get_cmd_shape (testDir caseId modifications base : String)
    (extra : List String) :
    (get_cmd testDir caseId modifications base extra).writes =
      [(modifsPath testDir caseId, modifications)] ∧
    (get_cmd testDir caseId modifications base extra).writes.length = 1 ∧
    (get_cmd testDir caseId modifications base extra).cmd =
      "case" :: base :: modifsPath testDir caseId :: extra :=
  ⟨rfl, rfl, rfl⟩
